import Mathlib

/-!
Shallow embedding of the OpenCL builtin-name tablegen backend
(`BuiltinNameEmitter` in `ClangOpenCLBuiltinEmitter.cpp`):
the overload collector / signature deduplicator (`GetOverloads`),
the two table emitters (`EmitSignatureTable`, `EmitBuiltinTable`),
the enum emitter (`EmitDeclarations`), the name dispatcher
(`EmitStringMatcher`) and the type projector (`EmitQualTypeFinder`).

TableGen `Record` values are modelled by value structures; the `Record *`
pointers that populate a builtin's `Signature` list are modelled by
natural-number identities (indices into the catalog's list of `Type`
records), so that pointer equality of records and structural equality of
the emitted descriptor tuples remain distinguishable, exactly as in the
C++ source.
-/

namespace OpenCLEmitter

/-- A TableGen `Type` record: fields `Name`, `VecWidth`, `AddrSpace`,
`IsPointer` and the `Name` of the referenced `QTName` record
(where the string `"null"` is the sentinel for "no direct concrete type"). -/
structure TypeRec where
  name : String
  vecWidth : Nat
  addrSpace : String
  isPointer : Bool
  qtName : String
deriving DecidableEq, Repr

/-- A TableGen `Builtin` record: fields `Name`, `Signature` (a list of
references to `Type` records, modelled as indices into the catalog's type
list so that record identity is preserved), `Extension`, and the
`Version` field of the referenced version record. -/
structure BuiltinRec where
  name : String
  signature : List Nat
  extension : String
  version : Nat
deriving DecidableEq, Repr

/-- The input catalog: the `Type` records (in declaration order; a
signature reference `i` denotes the record at position `i`) and the
`Builtin` records in declaration order. -/
structure Catalog where
  types : List TypeRec
  builtins : List BuiltinRec
deriving DecidableEq, Repr

/-- One emitted row of the `OpenCLSignature` table: the struct
`OpenCLType { ID; VectorWidth; AS; isPointer }`.  The type identifier is
the `Name` string (the `OCLT_<Name>` enumerator). -/
structure OpenCLType where
  id : String
  vectorWidth : Nat
  addrSpace : String
  isPointer : Bool
deriving DecidableEq, Repr

/-- One emitted row of the `OpenCLBuiltins` table: the struct
`OpenCLBuiltinDecl { NumArgs; ArgTableIndex; Extension; Version }`. -/
structure OpenCLBuiltinDecl where
  numArgs : Nat
  argTableIndex : Nat
  extension : String
  version : Nat
deriving DecidableEq, Repr

/-- Field projection of a type reference: the descriptor tuple that
`EmitSignatureTable` prints for the referenced record
(`Name`, `VecWidth`, `AddrSpace`, `IsPointer`). -/
def descOf (c : Catalog) (i : Nat) : OpenCLType :=
  let t := c.types.getD i ⟨"", 0, "", false, ""⟩
  ⟨t.name, t.vecWidth, t.addrSpace, t.isPointer⟩

/-- The mutable state of `BuiltinNameEmitter` during `GetOverloads`:
`SignatureSet` (list of (signature, cumulative index) pairs, where a
signature is the list of `Type`-record references), the running
`CumulativeSignIndex`, and `OverloadInfo` (an insertion-ordered map from
builtin name to the list of (builtin record, signature index) pairs). -/
structure GOState where
  sigSet : List (List Nat × Nat)
  cumul : Nat
  ovInfo : List (String × List (BuiltinRec × Nat))
deriving DecidableEq, Repr

/-- `MapVector::insert` of an empty entry when the key is absent
(the `OverloadInfo.find == end` check in `GetOverloads`). -/
def ensureKey (m : List (String × List (BuiltinRec × Nat))) (n : String) :
    List (String × List (BuiltinRec × Nat)) :=
  if m.any (fun p => p.1 = n) then m else m ++ [(n, [])]

/-- `OverloadInfo[BName].push_back(e)`: append `e` to the entry keyed by
`n`, inserting the entry at the end if absent (`MapVector::operator[]`). -/
def addOv (m : List (String × List (BuiltinRec × Nat))) (n : String)
    (e : BuiltinRec × Nat) : List (String × List (BuiltinRec × Nat)) :=
  match m with
  | [] => [(n, [e])]
  | (k, v) :: rest =>
      if k = n then (k, v ++ [e]) :: rest else (k, v) :: addOv rest n e

/-- The body of the loop in `GetOverloads` for one `Builtin` record:
ensure the name has an `OverloadInfo` entry, look the raw signature up in
`SignatureSet` by element-wise equality of the reference lists
(`a.first == Signature` on `std::vector<Record *>`), reuse the found
cumulative index or append the signature and advance the cumulative
index, then record the (builtin, index) pair under the name. -/
def goStep (st : GOState) (b : BuiltinRec) : GOState :=
  let m := ensureKey st.ovInfo b.name
  match st.sigSet.find? (fun p => p.1 = b.signature) with
  | some p => { st with ovInfo := addOv m b.name (b, p.2) }
  | none =>
      { sigSet := st.sigSet ++ [(b.signature, st.cumul)]
        cumul := st.cumul + b.signature.length
        ovInfo := addOv m b.name (b, st.cumul) }

/-- `BuiltinNameEmitter::GetOverloads`: fold the loop body over the
`Builtin` records in declaration order, starting from empty registries. -/
def GetOverloads (c : Catalog) : GOState :=
  c.builtins.foldl goStep ⟨[], 0, []⟩

/-- `BuiltinNameEmitter::EmitSignatureTable`: for each `SignatureSet`
entry in order, emit one `OpenCLType` row per referenced `Type` record. -/
def EmitSignatureTable (c : Catalog) : List OpenCLType :=
  ((GetOverloads c).sigSet.map (fun p => p.1.map (descOf c))).flatten

/-- One row printed by `EmitBuiltinTable`: the signature's size, the
stored signature index, the extension string and the version ordinal. -/
def builtinRow (b : BuiltinRec) (idx : Nat) : OpenCLBuiltinDecl :=
  ⟨b.signature.length, idx, b.extension, b.version⟩

/-- `BuiltinNameEmitter::EmitBuiltinTable`: for each `OverloadInfo` entry
in insertion order, emit one `OpenCLBuiltinDecl` row per overload in
declaration order. -/
def EmitBuiltinTable (c : Catalog) : List OpenCLBuiltinDecl :=
  ((GetOverloads c).ovInfo.map (fun p => p.2.map (fun q => builtinRow q.1 q.2))).flatten

/-- `BuiltinNameEmitter::EmitDeclarations`: the `OpenCLTypeID`
enumerators, one `OCLT_<Name>` per `Type` record whose `Name` was not in
`TypesSeen` yet; `seen` carries the `TypesSeen` keys. -/
def enumNames : List TypeRec → List String → List String
  | [], _ => []
  | t :: ts, seen =>
      if t.name ∈ seen then enumNames ts seen
      else t.name :: enumNames ts (t.name :: seen)

/-- The `(name, return statement)` pairs handed to `StringMatcher` by
`EmitStringMatcher`, with the statement abstracted to the returned
`(CumulativeIndex, overload count)` pair; `acc` is `CumulativeIndex`,
which starts at 1. -/
def nameIndex : List (String × List (BuiltinRec × Nat)) → Nat →
    List (String × (Nat × Nat))
  | [], _ => []
  | (n, ov) :: rest, acc => (n, (acc, ov.length)) :: nameIndex rest (acc + ov.length)

/-- Modelled from the spec: the dispatch function emitted by
`llvm::StringMatcher` (in `llvm/TableGen/StringMatcher`, which is not
part of the sources here) executes the return statement paired with the
name that exactly matches the input string, and falls through to the
trailing `return std::make_pair(0, 0);` otherwise.  The pairs and the
fallthrough are built in `BuiltinNameEmitter::EmitStringMatcher`. -/
def isOpenCLBuiltin (c : Catalog) (s : String) : Nat × Nat :=
  match (nameIndex (GetOverloads c).ovInfo 1).find? (fun p => p.1 = s) with
  | some p => p.2
  | none => (0, 0)

/-- A clang `QualType` value as built by the generated `OCL2Qual`:
`Context.VoidTy`, a named `Context.<QTName>` base type,
`Context.getExtVectorType`, `Context.getAddrSpaceQualType` and
`Context.getPointerType`. -/
inductive QualType where
  | void : QualType
  | ctxType : String → QualType
  | extVector : Nat → QualType → QualType
  | addrSpaceQual : String → QualType → QualType
  | pointer : QualType → QualType
deriving DecidableEq, Repr

/-- The `case OCLT_<Name>: RT = Context.<QTName>;` arms generated by
`EmitQualTypeFinder`: one `(Name, QTName)` pair per `Type` record whose
`Name` was not seen yet and whose `QTName` record's `Name` is not the
`"null"` sentinel; `seen` carries the `TypesSeen` keys.  Note the order
in the source: the seen-check runs first, then the name is marked seen,
then the sentinel check may skip the record. -/
def qualCases : List TypeRec → List String → List (String × String)
  | [], _ => []
  | t :: ts, seen =>
      if t.name ∈ seen then qualCases ts seen
      else if t.qtName = "null" then qualCases ts (t.name :: seen)
      else (t.name, t.qtName) :: qualCases ts (t.name :: seen)

/-- The generated `OCL2Qual(ASTContext, OpenCLType Ty)`: `RT` starts as
`Context.VoidTy`; the switch on `Ty.ID` (whose arms are `qualCases`)
replaces it by the resolved base type when an arm matches; then
`if (Ty.VectorWidth > 0)` wraps `RT` in an extended vector; then
`if (Ty.isPointer)` qualifies `RT` with the address space and wraps the
result in a pointer. -/
def OCL2Qual (types : List TypeRec) (ty : OpenCLType) : QualType :=
  let rt : QualType :=
    match (qualCases types []).find? (fun p => p.1 = ty.id) with
    | some p => QualType.ctxType p.2
    | none => QualType.void
  let rt := if ty.vectorWidth > 0 then QualType.extVector ty.vectorWidth rt else rt
  if ty.isPointer then QualType.pointer (QualType.addrSpaceQual ty.addrSpace rt) else rt

/-! ### Specification-side closed forms

These definitions follow the spec's words (first-seen deduplication,
cumulative starts, per-name grouping) and are proved equal to, or are
used to characterize, the state computed by the embedded source
functions above. -/

/-- First-seen deduplication with an accumulator of already-seen values. -/
def dedupKF {α : Type} [DecidableEq α] : List α → List α → List α
  | [], _ => []
  | a :: as, seen =>
      if a ∈ seen then dedupKF as seen else a :: dedupKF as (a :: seen)

/-- The distinct values of a list, each kept at its first occurrence, in
first-seen order (the spec's "one per distinct value, first-seen order"). -/
def keepFirsts {α : Type} [DecidableEq α] : List α → List α
  | [] => []
  | a :: as => a :: keepFirsts (as.filter (fun x => x ≠ a))
termination_by l => l.length
decreasing_by
  simp only [List.length_cons]
  exact Nat.lt_succ_of_le (List.length_filter_le _ _)

/-- Pair each signature with its cumulative start position, starting the
accumulator at `acc`. -/
def sigStarts : List (List Nat) → Nat → List (List Nat × Nat)
  | [], _ => []
  | s :: ss, acc => (s, acc) :: sigStarts ss (acc + s.length)

/-- The start recorded for signature `s` in a (signature, start) registry:
the second component of the first entry whose signature equals `s`. -/
def startOf (ds : List (List Nat × Nat)) (s : List Nat) : Nat :=
  ((ds.find? (fun p => p.1 = s)).map Prod.snd).getD 0

/-- The distinct raw signatures of a catalog's builtins, as
reference lists, in first-seen order. -/
def distinctSigs (bs : List BuiltinRec) : List (List Nat) :=
  dedupKF (bs.map (fun b => b.signature)) []

/-- The per-name grouping described by the spec: one entry per distinct
builtin name in first-seen order, holding that name's overloads in
declaration order, each paired with its signature's registered start. -/
def groupOv (bs : List BuiltinRec) (ds : List (List Nat × Nat)) :
    List (String × List (BuiltinRec × Nat)) :=
  (dedupKF (bs.map (fun b => b.name)) []).map
    (fun n => (n, (bs.filter (fun b => b.name = n)).map
      (fun b => (b, startOf ds b.signature))))

/-- The signatures of a catalog's builtins viewed structurally, as the
sequences of `OpenCLType` descriptor tuples the table rows are printed
from. -/
def structSigs (c : Catalog) : List (List OpenCLType) :=
  c.builtins.map (fun b => b.signature.map (descOf c))

/-! ### Basic lemmas about the closed forms -/

theorem mem_dedupKF {α : Type} [DecidableEq α] (l : List α) (seen : List α) (x : α) :
    x ∈ dedupKF l seen ↔ x ∈ l ∧ x ∉ seen := by
  induction l generalizing seen with
  | nil => simp [dedupKF]
  | cons a as ih =>
      rw [dedupKF]
      by_cases ha : a ∈ seen
      · rw [if_pos ha, ih, List.mem_cons]
        constructor
        · exact fun h => ⟨Or.inr h.1, h.2⟩
        · rintro ⟨rfl | h, hs⟩
          · exact absurd ha hs
          · exact ⟨h, hs⟩
      · rw [if_neg ha, List.mem_cons, ih, List.mem_cons, List.mem_cons]
        constructor
        · rintro (rfl | ⟨h1, h2⟩)
          · exact ⟨Or.inl rfl, ha⟩
          · exact ⟨Or.inr h1, fun hx => h2 (Or.inr hx)⟩
        · rintro ⟨rfl | h, hs⟩
          · exact Or.inl rfl
          · by_cases hxa : x = a
            · exact Or.inl hxa
            · exact Or.inr ⟨h, fun hor => hor.elim hxa hs⟩

theorem nodup_dedupKF {α : Type} [DecidableEq α] (l : List α) (seen : List α) :
    (dedupKF l seen).Nodup := by
  induction l generalizing seen with
  | nil => simp [dedupKF]
  | cons a as ih =>
      by_cases ha : a ∈ seen
      · simpa [dedupKF, ha] using ih seen
      · simp only [dedupKF, if_neg ha, List.nodup_cons]
        refine ⟨fun hmem => ?_, ih _⟩
        exact ((mem_dedupKF _ _ _).mp hmem).2 (List.mem_cons_self _ _)

theorem dedupKF_append {α : Type} [DecidableEq α] (l : List α) (a : α) (seen : List α) :
    dedupKF (l ++ [a]) seen =
      dedupKF l seen ++ (if a ∈ seen ∨ a ∈ l then [] else [a]) := by
  induction l generalizing seen with
  | nil => by_cases h : a ∈ seen <;> simp [dedupKF, h]
  | cons x xs ih =>
      by_cases hax : a = x
      · subst hax
        by_cases hx : a ∈ seen <;> by_cases haxs : a ∈ xs <;>
          simp [dedupKF, hx, haxs, ih, List.mem_cons]
      · by_cases hx : x ∈ seen <;> by_cases ha : a ∈ seen <;>
          by_cases haxs : a ∈ xs <;>
          simp [dedupKF, hx, ha, hax, haxs, ih, List.mem_cons]

theorem keepFirsts_cons {α : Type} [DecidableEq α] (a : α) (l : List α) :
    keepFirsts (a :: l) = a :: keepFirsts (l.filter (fun x => x ≠ a)) := by
  rw [keepFirsts]

theorem dedupKF_eq_keepFirsts {α : Type} [DecidableEq α] (l : List α) (seen : List α) :
    dedupKF l seen = keepFirsts (l.filter (fun x => x ∉ seen)) := by
  induction l generalizing seen with
  | nil => simp [dedupKF, keepFirsts]
  | cons a as ih =>
      by_cases ha : a ∈ seen
      · rw [dedupKF, if_pos ha, ih, List.filter_cons]
        simp [ha]
      · have hfc : List.filter (fun x => decide (x ∉ seen)) (a :: as)
            = a :: List.filter (fun x => decide (x ∉ seen)) as := by
          simp [ha]
        rw [dedupKF, if_neg ha, ih, hfc, keepFirsts_cons, List.filter_filter]
        congr 2
        apply List.filter_congr
        intro x _
        by_cases h1 : x = a <;> by_cases h2 : x ∈ seen <;>
          simp [h1, h2, List.mem_cons]

theorem dedupKF_eq_keepFirsts_nil {α : Type} [DecidableEq α] (l : List α) :
    dedupKF l [] = keepFirsts l := by
  rw [dedupKF_eq_keepFirsts]
  congr 1
  simp

theorem map_fst_sigStarts (ss : List (List Nat)) (acc : Nat) :
    (sigStarts ss acc).map Prod.fst = ss := by
  induction ss generalizing acc with
  | nil => rfl
  | cons s ss ih => simp [sigStarts, ih]

theorem sigStarts_append (ss : List (List Nat)) (s : List Nat) (acc : Nat) :
    sigStarts (ss ++ [s]) acc =
      sigStarts ss acc ++ [(s, acc + (ss.map List.length).sum)] := by
  induction ss generalizing acc with
  | nil => simp [sigStarts]
  | cons t ts ih =>
      simp only [List.cons_append, sigStarts, List.append_eq]
      rw [ih]
      simp [Nat.add_assoc]

theorem fst_mem_of_mem_sigStarts {ss : List (List Nat)} {acc : Nat}
    {p : List Nat × Nat} (h : p ∈ sigStarts ss acc) : p.1 ∈ ss := by
  have := map_fst_sigStarts ss acc
  exact this ▸ List.mem_map_of_mem Prod.fst h

theorem find?_sigStarts_eq_none {ss : List (List Nat)} {acc : Nat} {s : List Nat}
    (h : s ∉ ss) :
    (sigStarts ss acc).find? (fun p => p.1 = s) = none := by
  rw [List.find?_eq_none]
  intro p hp
  simp only [decide_eq_true_eq]
  intro hps
  exact h (hps ▸ fst_mem_of_mem_sigStarts hp)

theorem startOf_append_left {ds : List (List Nat × Nat)}
    (e : List (List Nat × Nat)) {s : List Nat}
    (h : s ∈ ds.map Prod.fst) : startOf (ds ++ e) s = startOf ds s := by
  have hsome : (ds.find? (fun p => p.1 = s)).isSome := by
    rw [List.find?_isSome]
    obtain ⟨p, hp, hps⟩ := List.mem_map.mp h
    exact ⟨p, hp, by simp [hps]⟩
  obtain ⟨p, hp⟩ := Option.isSome_iff_exists.mp hsome
  unfold startOf
  rw [List.find?_append, hp]
  rfl

theorem startOf_append_right {ds : List (List Nat × Nat)} {s : List Nat} {k : Nat}
    (h : s ∉ ds.map Prod.fst) : startOf (ds ++ [(s, k)]) s = k := by
  have hnone : ds.find? (fun p => p.1 = s) = none := by
    rw [List.find?_eq_none]
    intro p hp
    simp only [decide_eq_true_eq]
    intro hps
    exact h (List.mem_map.mpr ⟨p, hp, hps⟩)
  unfold startOf
  rw [List.find?_append, hnone, Option.none_or]
  simp [List.find?]

/-! ### Lemmas about the `OverloadInfo` map operations -/

theorem ensureKey_mem {m : List (String × List (BuiltinRec × Nat))} {n : String}
    (h : n ∈ m.map Prod.fst) : ensureKey m n = m := by
  unfold ensureKey
  rw [if_pos]
  rw [List.any_eq_true]
  obtain ⟨p, hp, hps⟩ := List.mem_map.mp h
  exact ⟨p, hp, by simp [hps]⟩

theorem ensureKey_not_mem {m : List (String × List (BuiltinRec × Nat))} {n : String}
    (h : n ∉ m.map Prod.fst) : ensureKey m n = m ++ [(n, [])] := by
  unfold ensureKey
  rw [if_neg]
  rw [List.any_eq_true]
  rintro ⟨p, hp, hps⟩
  exact h (List.mem_map.mpr ⟨p, hp, by simpa using hps⟩)

theorem addOv_map {names : List String} {g : String → List (BuiltinRec × Nat)}
    (hn : names.Nodup) (n : String) (e : BuiltinRec × Nat) (hmem : n ∈ names) :
    addOv (names.map (fun k => (k, g k))) n e =
      names.map (fun k => (k, if k = n then g k ++ [e] else g k)) := by
  induction names with
  | nil => cases hmem
  | cons k ks ih =>
      rw [List.nodup_cons] at hn
      simp only [List.map_cons, addOv]
      by_cases hk : k = n
      · subst hk
        rw [if_pos rfl]
        simp only [if_pos rfl]
        congr 1
        apply List.map_congr_left
        intro x hx
        have hxk : x ≠ k := fun hxe => hn.1 (hxe ▸ hx)
        rw [if_neg hxk]
      · rw [if_neg hk,
          ih hn.2 ((List.mem_cons.mp hmem).resolve_left (fun he => hk he.symm)),
          if_neg hk]

theorem addOv_append_last {m : List (String × List (BuiltinRec × Nat))}
    {n : String} (v : List (BuiltinRec × Nat)) (e : BuiltinRec × Nat)
    (h : n ∉ m.map Prod.fst) :
    addOv (m ++ [(n, v)]) n e = m ++ [(n, v ++ [e])] := by
  induction m with
  | nil => simp [addOv]
  | cons p ps ih =>
      simp only [List.map_cons, List.mem_cons] at h
      push_neg at h
      simp only [List.cons_append, addOv, List.append_eq]
      rw [if_neg (fun he => h.1 he.symm), ih h.2]

/-- Keys of the spec-side grouping: the distinct builtin names in
first-seen order. -/
theorem map_fst_groupOv (bs : List BuiltinRec) (ds : List (List Nat × Nat)) :
    (groupOv bs ds).map Prod.fst = dedupKF (bs.map (fun b => b.name)) [] := by
  unfold groupOv
  rw [List.map_map]
  have hcomp : (Prod.fst ∘ fun n =>
      (n, (bs.filter (fun b => b.name = n)).map
        (fun b => (b, startOf ds b.signature)))) = (id : String → String) := rfl
  rw [hcomp, List.map_id]

/-- Appending one builtin to the catalog rewrites the spec-side grouping
by exactly the two map operations the source performs, provided the
starts registered for the already-present builtins do not change. -/
theorem groupOv_snoc (bs : List BuiltinRec) (b : BuiltinRec)
    (ds ds' : List (List Nat × Nat))
    (hold : ∀ x ∈ bs, startOf ds' x.signature = startOf ds x.signature) :
    groupOv (bs ++ [b]) ds' =
      addOv (ensureKey (groupOv bs ds) b.name) b.name (b, startOf ds' b.signature) := by
  have hkeys := map_fst_groupOv bs ds
  have hnodup : ((groupOv bs ds).map Prod.fst).Nodup := by
    rw [hkeys]; exact nodup_dedupKF _ _
  by_cases hb : b.name ∈ bs.map (fun x => x.name)
  · have hbk : b.name ∈ (groupOv bs ds).map Prod.fst := by
      rw [hkeys, mem_dedupKF]
      exact ⟨hb, List.not_mem_nil _⟩
    rw [ensureKey_mem hbk]
    unfold groupOv
    simp only [List.map_append, List.map_cons, List.map_nil]
    rw [dedupKF_append, if_pos (Or.inr hb), List.append_nil]
    rw [addOv_map (by rw [hkeys] at hnodup; exact hnodup) b.name _
      (by rw [mem_dedupKF]; exact ⟨hb, List.not_mem_nil _⟩)]
    apply List.map_congr_left
    intro n hn
    simp only [List.filter_append, List.map_append]
    by_cases hnb : n = b.name
    · subst hnb
      rw [if_pos rfl]
      congr 1
      congr 1
      · apply List.map_congr_left
        intro x hx
        rw [hold x (List.mem_filter.mp hx).1]
      · simp [List.filter_cons]
    · rw [if_neg hnb]
      have hbn : ¬ b.name = n := fun he => hnb he.symm
      have hnil : List.filter (fun x => decide (x.name = n)) [b] = [] := by
        simp [List.filter_cons, hbn]
      rw [hnil]
      simp only [List.map_nil, List.append_nil]
      congr 1
      apply List.map_congr_left
      intro x hx
      rw [hold x (List.mem_filter.mp hx).1]
  · have hbk : b.name ∉ (groupOv bs ds).map Prod.fst := by
      rw [hkeys, mem_dedupKF]
      rintro ⟨hmem, _⟩
      exact hb hmem
    rw [ensureKey_not_mem hbk, addOv_append_last _ _ hbk, List.nil_append]
    unfold groupOv
    simp only [List.map_append, List.map_cons, List.map_nil]
    rw [dedupKF_append, if_neg (fun hor => hor.elim (List.not_mem_nil _) hb)]
    rw [List.map_append]
    congr 1
    · apply List.map_congr_left
      intro n hn
      have hnb : n ≠ b.name := by
        rintro rfl
        exact hb ((mem_dedupKF _ _ _).mp hn).1
      have hbn : ¬ b.name = n := fun he => hnb he.symm
      have hnil : List.filter (fun x => decide (x.name = n)) [b] = [] := by
        simp [List.filter_cons, hbn]
      simp only [List.filter_append, hnil, List.map_nil, List.append_nil]
      congr 1
      apply List.map_congr_left
      intro x hx
      rw [hold x (List.mem_filter.mp hx).1]
    · simp only [List.map_cons, List.map_nil]
      have hflt : List.filter (fun x => decide (x.name = b.name)) bs = [] := by
        rw [List.filter_eq_nil_iff]
        intro x hx
        simp only [decide_eq_true_eq]
        intro he
        exact hb (List.mem_map.mpr ⟨x, hx, he⟩)
      simp [List.filter_append, List.filter_cons, hflt]

/-! ### The master characterization of `GetOverloads` -/

/-- After folding `goStep` over any prefix of builtin declarations, the
`SignatureSet` is exactly the distinct raw signatures (as reference
lists, in first-seen order) paired with their cumulative starts, the
cumulative index is the total length of the distinct signatures, and
`OverloadInfo` is the spec-side per-name grouping. -/
theorem goFold_eq (bs : List BuiltinRec) :
    bs.foldl goStep ⟨[], 0, []⟩ =
      ⟨sigStarts (dedupKF (bs.map (fun x => x.signature)) []) 0,
       ((dedupKF (bs.map (fun x => x.signature)) []).map List.length).sum,
       groupOv bs (sigStarts (dedupKF (bs.map (fun x => x.signature)) []) 0)⟩ := by
  induction bs using List.reverseRecOn with
  | nil => rfl
  | append_singleton bs b ih =>
      simp only [List.foldl_append, List.foldl_cons, List.foldl_nil]
      rw [ih]
      have hmapb : (bs ++ [b]).map (fun x => x.signature)
          = bs.map (fun x => x.signature) ++ [b.signature] := by
        simp
      by_cases hmem : b.signature ∈ bs.map (fun x => x.signature)
      · have hdd : b.signature ∈ dedupKF (bs.map (fun x => x.signature)) [] :=
          (mem_dedupKF _ _ _).mpr ⟨hmem, List.not_mem_nil _⟩
        have hkey : b.signature ∈
            (sigStarts (dedupKF (bs.map (fun x => x.signature)) []) 0).map Prod.fst := by
          rw [map_fst_sigStarts]; exact hdd
        have hsome : (((sigStarts (dedupKF (bs.map (fun x => x.signature)) []) 0)).find?
            (fun p => p.1 = b.signature)).isSome := by
          rw [List.find?_isSome]
          obtain ⟨p, hp, hps⟩ := List.mem_map.mp hkey
          exact ⟨p, hp, by simp [hps]⟩
        obtain ⟨p, hp⟩ := Option.isSome_iff_exists.mp hsome
        have hp2 : p.2 = startOf (sigStarts (dedupKF (bs.map (fun x => x.signature)) []) 0)
            b.signature := by
          unfold startOf
          rw [hp]
          rfl
        have hds' : dedupKF ((bs ++ [b]).map (fun x => x.signature)) []
            = dedupKF (bs.map (fun x => x.signature)) [] := by
          rw [hmapb, dedupKF_append, if_pos (Or.inr hmem), List.append_nil]
        simp only [goStep, hp]
        rw [hds',
          groupOv_snoc bs b _ (sigStarts (dedupKF (bs.map (fun x => x.signature)) []) 0)
            (fun x _ => rfl), hp2]
      · have hdd : b.signature ∉ dedupKF (bs.map (fun x => x.signature)) [] := by
          rw [mem_dedupKF]
          rintro ⟨h1, _⟩
          exact hmem h1
        have hnone : ((sigStarts (dedupKF (bs.map (fun x => x.signature)) []) 0)).find?
            (fun p => p.1 = b.signature) = none := find?_sigStarts_eq_none hdd
        have hds' : dedupKF ((bs ++ [b]).map (fun x => x.signature)) []
            = dedupKF (bs.map (fun x => x.signature)) [] ++ [b.signature] := by
          rw [hmapb, dedupKF_append,
            if_neg (fun hor => hor.elim (List.not_mem_nil _) hmem)]
        have hkey : b.signature ∉
            (sigStarts (dedupKF (bs.map (fun x => x.signature)) []) 0).map Prod.fst := by
          rw [map_fst_sigStarts]; exact hdd
        simp only [goStep, hnone]
        rw [hds', sigStarts_append]
        simp only [GOState.mk.injEq]
        refine ⟨by rw [Nat.zero_add], by simp, ?_⟩
        rw [groupOv_snoc bs b
          (sigStarts (dedupKF (bs.map (fun x => x.signature)) []) 0)
          (sigStarts (dedupKF (bs.map (fun x => x.signature)) []) 0 ++
            [(b.signature, 0 + ((dedupKF (bs.map (fun x => x.signature)) []).map
              List.length).sum)])
          (fun x hx => startOf_append_left _ (by
            rw [map_fst_sigStarts, mem_dedupKF]
            exact ⟨List.mem_map.mpr ⟨x, hx, rfl⟩, List.not_mem_nil _⟩))]
        rw [startOf_append_right hkey, Nat.zero_add]

/-- `GetOverloads` in closed form. -/
theorem GetOverloads_eq (c : Catalog) :
    GetOverloads c =
      ⟨sigStarts (distinctSigs c.builtins) 0,
       ((distinctSigs c.builtins).map List.length).sum,
       groupOv c.builtins (sigStarts (distinctSigs c.builtins) 0)⟩ :=
  goFold_eq c.builtins

/-- Projections of the closed form, for rewriting. -/
theorem sigSet_eq (c : Catalog) :
    (GetOverloads c).sigSet = sigStarts (distinctSigs c.builtins) 0 := by
  rw [GetOverloads_eq]

/-- The `OverloadInfo` component of the closed form. -/
theorem ovInfo_eq (c : Catalog) :
    (GetOverloads c).ovInfo
      = groupOv c.builtins (sigStarts (distinctSigs c.builtins) 0) := by
  rw [GetOverloads_eq]

/-! ### Lemmas about the name dispatcher -/

theorem map_fst_nameIndex (m : List (String × List (BuiltinRec × Nat))) (acc : Nat) :
    (nameIndex m acc).map Prod.fst = m.map Prod.fst := by
  induction m generalizing acc with
  | nil => rfl
  | cons p rest ih => simp [nameIndex, ih]

theorem find?_nameIndex (m : List (String × List (BuiltinRec × Nat))) (acc : Nat)
    (n : String) (hn : n ∈ m.map Prod.fst) :
    ∃ ovs, m.find? (fun p => p.1 = n) = some (n, ovs) ∧
      (nameIndex m acc).find? (fun p => p.1 = n) =
        some (n, (acc + ((m.takeWhile (fun p => ¬ p.1 = n)).map
          (fun p => p.2.length)).sum, ovs.length)) := by
  induction m generalizing acc with
  | nil => cases hn
  | cons q rest ih =>
      obtain ⟨k, v⟩ := q
      by_cases hk : k = n
      · subst hk
        refine ⟨v, ?_, ?_⟩
        · simp [List.find?_cons]
        · simp [nameIndex, List.find?_cons, List.takeWhile_cons]
      · have hrest : n ∈ rest.map Prod.fst := by
          rcases List.mem_cons.mp hn with he | he
          · exact absurd he.symm hk
          · exact he
        obtain ⟨ovs, h1, h2⟩ := ih (acc + v.length) hrest
        refine ⟨ovs, ?_, ?_⟩
        · simp [List.find?_cons, hk, h1]
        · simp [nameIndex, List.find?_cons, hk, List.takeWhile_cons, h2,
            Nat.add_assoc]

theorem find?_map_key {β : Type} (names : List String) (g : String → β) (n : String)
    (hn : n ∈ names) :
    (names.map (fun k => (k, g k))).find? (fun p => p.1 = n) = some (n, g n) := by
  induction names with
  | nil => cases hn
  | cons k ks ih =>
      by_cases hk : k = n
      · subst hk
        simp [List.find?_cons]
      · have hmem : n ∈ ks :=
          (List.mem_cons.mp hn).resolve_left (fun he => hk he.symm)
        simp [List.find?_cons, hk, ih hmem]

theorem flatten_slice {β : Type} (L1 L2 : List (List β)) (blk : List β) :
    (((L1 ++ blk :: L2).flatten).drop ((L1.map List.length).sum)).take blk.length
      = blk := by
  induction L1 with
  | nil =>
      simp only [List.nil_append, List.flatten_cons, List.map_nil, List.sum_nil,
        List.drop_zero]
      exact List.take_left blk L2.flatten
  | cons x xs ih =>
      simp only [List.cons_append, List.flatten_cons, List.map_cons, List.sum_cons]
      rw [List.drop_append]
      exact ih

theorem takeWhile_decomp {α : Type} [DecidableEq α] (l : List α) (n : α) (h : n ∈ l) :
    l = l.takeWhile (fun x => ¬ x = n) ++
      n :: (l.dropWhile (fun x => ¬ x = n)).tail := by
  induction l with
  | nil => cases h
  | cons a as ih =>
      by_cases ha : a = n
      · subst ha
        simp [List.takeWhile_cons, List.dropWhile_cons]
      · have hmem : n ∈ as := (List.mem_cons.mp h).resolve_left (fun he => ha he.symm)
        have hcond : (decide ¬(a = n)) = true := by simp [ha]
        rw [List.takeWhile_cons, List.dropWhile_cons, if_pos hcond, if_pos hcond,
          List.cons_append]
        exact congrArg (a :: ·) (ih hmem)

/-! ### Lemmas about the generated type-resolution cases -/

theorem fst_not_mem_seen_of_mem_qualCases :
    ∀ (ts : List TypeRec) (seen : List String) (p : String × String),
      p ∈ qualCases ts seen → p.1 ∉ seen := by
  intro ts
  induction ts with
  | nil =>
      intro seen p hp
      cases hp
  | cons t ts ih =>
      intro seen p hp
      rw [qualCases] at hp
      by_cases ht : t.name ∈ seen
      · rw [if_pos ht] at hp
        exact ih seen p hp
      · rw [if_neg ht] at hp
        by_cases hq : t.qtName = "null"
        · rw [if_pos hq] at hp
          intro hs
          exact ih _ p hp (List.mem_cons_of_mem _ hs)
        · rw [if_neg hq] at hp
          rcases List.mem_cons.mp hp with rfl | hmem
          · exact ht
          · intro hs
            exact ih _ p hmem (List.mem_cons_of_mem _ hs)

theorem find?_qualCases_of_seen {ts : List TypeRec} {seen : List String} {n : String}
    (h : n ∈ seen) :
    (qualCases ts seen).find? (fun p => p.1 = n) = none := by
  rw [List.find?_eq_none]
  intro p hp
  simp only [decide_eq_true_eq]
  intro hpn
  exact fst_not_mem_seen_of_mem_qualCases ts seen p hp (by rw [hpn]; exact h)

/-- The first-seen/sentinel behavior of the generated switch arms: the
arm for `n` exists iff the first declared `Type` record named `n` has a
non-sentinel concrete type name, and in that case resolves to the first
record's `QTName`. -/
theorem find?_qualCases (ts : List TypeRec) (seen : List String) (n : String)
    (hn : n ∉ seen) :
    (qualCases ts seen).find? (fun p => p.1 = n) =
      (match ts.find? (fun t => t.name = n) with
       | none => none
       | some t => if t.qtName = "null" then none else some (n, t.qtName)) := by
  induction ts generalizing seen with
  | nil => rfl
  | cons t ts ih =>
      rw [qualCases]
      by_cases ht : t.name ∈ seen
      · have htn : ¬ t.name = n := fun he => hn (he ▸ ht)
        rw [if_pos ht, ih seen hn, List.find?_cons]
        simp [htn]
      · rw [if_neg ht]
        by_cases hq : t.qtName = "null"
        · rw [if_pos hq]
          by_cases htn : t.name = n
          · subst htn
            rw [find?_qualCases_of_seen (List.mem_cons_self _ _), List.find?_cons]
            simp [hq]
          · rw [ih (t.name :: seen)
              (fun hmem => (List.mem_cons.mp hmem).elim (fun he => htn he.symm) hn),
              List.find?_cons]
            simp [htn]
        · rw [if_neg hq, List.find?_cons, List.find?_cons]
          by_cases htn : t.name = n
          · subst htn
            simp [hq]
          · have hd : (decide (t.name = n)) = false := by simp [htn]
            simp only [hd]
            exact ih (t.name :: seen)
              (fun hmem => (List.mem_cons.mp hmem).elim (fun he => htn he.symm) hn)

/-! ### Length of the builtin table (no deduplication of overloads) -/

/-- The rows emitted from an `OverloadInfo` map. -/
def rowsOf (m : List (String × List (BuiltinRec × Nat))) : List OpenCLBuiltinDecl :=
  (m.map (fun p => p.2.map (fun q => builtinRow q.1 q.2))).flatten

theorem length_rowsOf_addOv (m : List (String × List (BuiltinRec × Nat)))
    (n : String) (e : BuiltinRec × Nat) :
    (rowsOf (addOv m n e)).length = (rowsOf m).length + 1 := by
  induction m with
  | nil => simp [addOv, rowsOf]
  | cons p rest ih =>
      by_cases hk : p.1 = n
      · simp [addOv, hk, rowsOf, List.flatten_cons]
        omega
      · simp only [addOv, hk, if_false, rowsOf, List.map_cons, List.flatten_cons,
          List.length_append] at ih ⊢
        omega

theorem length_rowsOf_ensureKey (m : List (String × List (BuiltinRec × Nat)))
    (n : String) :
    (rowsOf (ensureKey m n)).length = (rowsOf m).length := by
  unfold ensureKey
  by_cases h : m.any (fun p => p.1 = n)
  · rw [if_pos h]
  · rw [if_neg h]
    simp [rowsOf]

theorem ovInfo_goStep (st : GOState) (b : BuiltinRec) :
    ∃ k, (goStep st b).ovInfo = addOv (ensureKey st.ovInfo b.name) b.name (b, k) := by
  unfold goStep
  cases h : st.sigSet.find? (fun p => p.1 = b.signature) with
  | none => exact ⟨st.cumul, by simp [h]⟩
  | some p => exact ⟨p.2, by simp [h]⟩

theorem length_EmitBuiltinTable (c : Catalog) :
    (EmitBuiltinTable c).length = c.builtins.length := by
  suffices h : ∀ bs : List BuiltinRec, ∀ st : GOState,
      (rowsOf (bs.foldl goStep st).ovInfo).length = (rowsOf st.ovInfo).length + bs.length by
    have h2 := h c.builtins ⟨[], 0, []⟩
    simpa [EmitBuiltinTable, GetOverloads, rowsOf] using h2
  intro bs
  induction bs with
  | nil => simp
  | cons b bs ih =>
      intro st
      rw [List.foldl_cons, ih]
      obtain ⟨k, hk⟩ := ovInfo_goStep st b
      rw [hk, length_rowsOf_addOv, length_rowsOf_ensureKey]
      simp only [List.length_cons]
      omega

/-- Generic block-slice extraction: in the flattening of per-name blocks,
dropping the lengths of the blocks before `n` and taking `n`'s block
length recovers exactly `n`'s block. -/
theorem flatten_map_slice {α γ : Type} [DecidableEq α] (ns : List α) (n : α)
    (hn : n ∈ ns) (F : α → List γ) (cnt : α → Nat)
    (hcnt : ∀ m, cnt m = (F m).length) :
    (((ns.map F).flatten.drop
      (((ns.takeWhile (fun m => ¬ m = n)).map cnt).sum)).take (cnt n)) = F n := by
  obtain ⟨pre, hpre⟩ : ∃ l, ns.takeWhile (fun m => ¬ m = n) = l := ⟨_, rfl⟩
  obtain ⟨post, hpost⟩ : ∃ l, (ns.dropWhile (fun m => ¬ m = n)).tail = l := ⟨_, rfl⟩
  have hdecomp := takeWhile_decomp ns n hn
  rw [hpre, hpost] at hdecomp
  rw [hpre, hdecomp, List.map_append, List.map_cons]
  have hsl := flatten_slice (pre.map F) (post.map F) (F n)
  rw [List.map_map] at hsl
  have hmc : pre.map cnt = pre.map (List.length ∘ F) :=
    List.map_congr_left (fun m _ => hcnt m)
  rw [hmc, hcnt n]
  exact hsl

/-- The contiguous block of `n` inside the emitted rows of the grouped
`OverloadInfo`: dropping the cumulative counts of the names seen before
`n` and taking `n`'s overload count yields exactly `n`'s rows. -/
theorem block_slice (bs : List BuiltinRec) (ds : List (List Nat × Nat)) (n : String)
    (hn : n ∈ dedupKF (bs.map (fun b => b.name)) []) :
    ((rowsOf (groupOv bs ds)).drop
      ((((dedupKF (bs.map (fun b => b.name)) []).takeWhile (fun m => ¬ m = n)).map
        (fun m => (bs.filter (fun b => b.name = m)).length)).sum)).take
      ((bs.filter (fun b => b.name = n)).length)
    = (bs.filter (fun b => b.name = n)).map
        (fun b => builtinRow b (startOf ds b.signature)) := by
  have key := flatten_map_slice (dedupKF (bs.map (fun b => b.name)) []) n hn
    (fun m => ((bs.filter (fun b => b.name = m)).map
      (fun b => (b, startOf ds b.signature))).map (fun q => builtinRow q.1 q.2))
    (fun m => (bs.filter (fun b => b.name = m)).length)
    (fun m => by simp [List.length_map])
  have hrows : rowsOf (groupOv bs ds)
      = ((dedupKF (bs.map (fun b => b.name)) []).map
          (fun m => ((bs.filter (fun b => b.name = m)).map
            (fun b => (b, startOf ds b.signature))).map
              (fun q => builtinRow q.1 q.2))).flatten := by
    unfold rowsOf groupOv
    rw [List.map_map]
    exact congrArg List.flatten (List.map_congr_left (fun m _ => rfl))
  rw [hrows]
  refine key.trans ?_
  show List.map (fun q : BuiltinRec × Nat => builtinRow q.1 q.2)
      (List.map (fun b : BuiltinRec => (b, startOf ds b.signature))
        (List.filter (fun b => b.name = n) bs))
    = List.map (fun b => builtinRow b (startOf ds b.signature))
        (List.filter (fun b => b.name = n) bs)
  rw [List.map_map]
  exact List.map_congr_left (fun b _ => rfl)

/-! ### Concrete catalogs used as witnesses and counterexamples -/

/-- The scenario catalog of the specification: `cos(float)->float`,
`sin(float)->float`, `cos(double)->double`; references 0 and 1 denote
the two `Type` records. -/
def catS : Catalog :=
  ⟨[⟨"float", 0, "Default", false, "FloatTy"⟩,
    ⟨"double", 0, "Default", false, "DoubleTy"⟩],
   [⟨"cos", [0, 0], "", 100⟩, ⟨"sin", [0, 0], "", 100⟩, ⟨"cos", [1, 1], "", 100⟩]⟩

/-- A catalog holding two distinct `Type` records with identical field
values, referenced by two builtins through different record identities. -/
def cexCat : Catalog :=
  ⟨[⟨"int", 0, "Default", false, "IntTy"⟩, ⟨"int", 0, "Default", false, "IntTy"⟩],
   [⟨"foo", [0], "", 100⟩, ⟨"bar", [1], "", 100⟩]⟩

/-! ### Claims -/

/-- C1 (counterexample): on `cexCat`, the builtins `foo` and `bar` declare
structurally equal signatures (identical descriptor sequences) through
two distinct `Type` records, and the emitted `OpenCLSignature` table
holds two registered runs whose contents coincide; its total length is 2
while the sum of arities over the structurally distinct signatures is 1,
so structural deduplication fails. -/
theorem sigTable_structural_dedup_cex :
    (GetOverloads cexCat).sigSet.length = 2 ∧
    (EmitSignatureTable cexCat).take 1 = (EmitSignatureTable cexCat).drop 1 ∧
    (EmitSignatureTable cexCat).length = 2 ∧
    ((dedupKF (structSigs cexCat) []).map List.length).sum = 1 := by
  decide

/-- C1 (amended): deduplication is by identity of the referenced `Type`
records: the `SignatureSet` is exactly the distinct reference sequences
in first-seen order with cumulative starts, each such sequence occurs
exactly once, and the table's length is the sum of arities over the
distinct reference sequences. -/
theorem sigTable_dedup_by_reference (c : Catalog) :
    (GetOverloads c).sigSet = sigStarts (distinctSigs c.builtins) 0 ∧
    (distinctSigs c.builtins).Nodup ∧
    (EmitSignatureTable c).length = ((distinctSigs c.builtins).map List.length).sum := by
  refine ⟨sigSet_eq c, nodup_dedupKF _ _, ?_⟩
  unfold EmitSignatureTable
  rw [sigSet_eq, List.length_flatten, List.map_map]
  congr 1
  have h1 : (List.length ∘ fun p : List Nat × Nat => List.map (descOf c) p.1)
      = fun p : List Nat × Nat => p.1.length := by
    funext p
    simp [List.length_map]
  rw [h1]
  have h2 : (fun p : List Nat × Nat => p.1.length)
      = (List.length ∘ (Prod.fst : List Nat × Nat → List Nat)) := rfl
  rw [h2, ← List.map_map, map_fst_sigStarts]

/-- The flattened (builtin record, signature index) pairs stored in
`OverloadInfo`. -/
def ovPairs (c : Catalog) : List (BuiltinRec × Nat) :=
  ((GetOverloads c).ovInfo.map Prod.snd).flatten

theorem snd_ovPairs (c : Catalog) (p : BuiltinRec × Nat) (hp : p ∈ ovPairs c) :
    p.2 = startOf (sigStarts (distinctSigs c.builtins) 0) p.1.signature := by
  unfold ovPairs at hp
  rw [ovInfo_eq] at hp
  unfold groupOv at hp
  rw [List.map_map, List.mem_flatten] at hp
  obtain ⟨l, hl, hpl⟩ := hp
  rw [List.mem_map] at hl
  obtain ⟨m, _, rfl⟩ := hl
  simp only [Function.comp_apply] at hpl
  rw [List.mem_map] at hpl
  obtain ⟨b, _, rfl⟩ := hpl
  rfl

/-- C2 (amended): two stored overloads whose raw signatures are equal as
sequences of `Type`-record references receive the identical signature
start. -/
theorem overload_sharing_by_reference (c : Catalog) (p q : BuiltinRec × Nat)
    (hp : p ∈ ovPairs c) (hq : q ∈ ovPairs c)
    (hsig : p.1.signature = q.1.signature) : p.2 = q.2 := by
  rw [snd_ovPairs c p hp, snd_ovPairs c q hq, hsig]

/-- C2 (witness for the amended claim). -/
theorem overload_sharing_by_reference_witness :
    ((⟨"cos", [0, 0], "", 100⟩, 0) : BuiltinRec × Nat).2
      = ((⟨"sin", [0, 0], "", 100⟩, 0) : BuiltinRec × Nat).2 :=
  overload_sharing_by_reference catS (⟨"cos", [0, 0], "", 100⟩, 0)
    (⟨"sin", [0, 0], "", 100⟩, 0) (by decide) (by decide) (by decide)

/-- C2 (counterexample): on `cexCat` the two overloads `foo` and `bar`
declare structurally equal signatures but their emitted rows reference
different signature starts (0 and 1). -/
theorem overload_sharing_structural_cex :
    (structSigs cexCat).getD 0 [] = (structSigs cexCat).getD 1 [] ∧
    ((EmitBuiltinTable cexCat).getD 0 ⟨0, 0, "", 0⟩).argTableIndex = 0 ∧
    ((EmitBuiltinTable cexCat).getD 1 ⟨0, 0, "", 0⟩).argTableIndex = 1 := by
  decide

/-- C4 (confirmed): the generated dispatcher returns the sentinel
`(0, 0)` for every name that is not a declared builtin name; in
particular it does so for every input when the catalog is empty. -/
theorem lookup_absent_sentinel (c : Catalog) (s : String)
    (h : s ∉ c.builtins.map (fun b => b.name)) :
    isOpenCLBuiltin c s = (0, 0) := by
  unfold isOpenCLBuiltin
  have hnone : (nameIndex (GetOverloads c).ovInfo 1).find? (fun p => p.1 = s)
      = none := by
    rw [List.find?_eq_none]
    intro p hp
    simp only [decide_eq_true_eq]
    intro hps
    have hmem : p.1 ∈ (nameIndex (GetOverloads c).ovInfo 1).map Prod.fst :=
      List.mem_map_of_mem _ hp
    rw [map_fst_nameIndex, ovInfo_eq, map_fst_groupOv, mem_dedupKF] at hmem
    exact h (hps ▸ hmem.1)
  rw [hnone]

/-- C4 (witness): the empty catalog maps every probe to the sentinel. -/
theorem lookup_absent_sentinel_witness :
    isOpenCLBuiltin ⟨[], []⟩ "tan" = (0, 0) :=
  lookup_absent_sentinel ⟨[], []⟩ "tan" (by decide)

/-- C5 (confirmed): `OverloadInfo` is exactly the per-name grouping of
the catalog — one block per distinct name in first-seen order, rows in
declaration order with their signature starts — and the emitted
`OpenCLBuiltins` table has one row per declared overload (no
deduplication), so its length equals the number of builtin
declarations. -/
theorem builtin_table_grouped_no_dedup (c : Catalog) :
    (GetOverloads c).ovInfo
      = groupOv c.builtins (sigStarts (distinctSigs c.builtins) 0) ∧
    (EmitBuiltinTable c).length = c.builtins.length :=
  ⟨ovInfo_eq c, length_EmitBuiltinTable c⟩

theorem enumNames_eq_dedupKF (ts : List TypeRec) (seen : List String) :
    enumNames ts seen = dedupKF (ts.map (fun t => t.name)) seen := by
  induction ts generalizing seen with
  | nil => rfl
  | cons t ts ih =>
      by_cases h : t.name ∈ seen <;> simp [enumNames, dedupKF, h, ih]

/-- C9 (confirmed): the emitted `OpenCLTypeID` enumerators are the
distinct declared `Type` names in first-seen order: one per distinct
name, no duplicates, and a name is enumerated iff it is declared. -/
theorem enum_distinct_first_seen (ts : List TypeRec) :
    enumNames ts [] = keepFirsts (ts.map (fun t => t.name)) ∧
    (enumNames ts []).Nodup ∧
    (∀ n, n ∈ enumNames ts [] ↔ n ∈ ts.map (fun t => t.name)) := by
  refine ⟨?_, ?_, ?_⟩
  · rw [enumNames_eq_dedupKF, dedupKF_eq_keepFirsts_nil]
  · rw [enumNames_eq_dedupKF]
    exact nodup_dedupKF _ _
  · intro n
    rw [enumNames_eq_dedupKF, mem_dedupKF]
    simp

/-- C3 (confirmed): for every declared builtin name, the dispatcher
returns `(start, count)` with `start ≥ 1`, `count` the number of
declared overloads of that name, `start` equal to one plus the cumulative
overload count of the names first seen before it, and rows
`[start-1, start-1+count)` of the emitted `OpenCLBuiltins` table are
exactly that name's declared overloads in declaration order. -/
theorem lookup_present_block (c : Catalog) (n : String)
    (h : n ∈ c.builtins.map (fun b => b.name)) :
    1 ≤ (isOpenCLBuiltin c n).1 ∧
    (isOpenCLBuiltin c n).2 = (c.builtins.filter (fun b => b.name = n)).length ∧
    (isOpenCLBuiltin c n).1 = 1 +
      (((dedupKF (c.builtins.map (fun b => b.name)) []).takeWhile
        (fun m => ¬ m = n)).map
        (fun m => (c.builtins.filter (fun b => b.name = m)).length)).sum ∧
    ((EmitBuiltinTable c).drop ((isOpenCLBuiltin c n).1 - 1)).take
        (isOpenCLBuiltin c n).2
      = (c.builtins.filter (fun b => b.name = n)).map
          (fun b => builtinRow b
            (startOf (sigStarts (distinctSigs c.builtins) 0) b.signature)) := by
  have hnmem : n ∈ dedupKF (c.builtins.map (fun b => b.name)) [] :=
    (mem_dedupKF _ _ _).mpr ⟨h, List.not_mem_nil _⟩
  obtain ⟨ovs, hfind, hnfind⟩ := find?_nameIndex
    (groupOv c.builtins (sigStarts (distinctSigs c.builtins) 0)) 1 n
    (by rw [map_fst_groupOv]; exact hnmem)
  have hovs : ovs = (c.builtins.filter (fun b => b.name = n)).map
      (fun b => (b, startOf (sigStarts (distinctSigs c.builtins) 0) b.signature)) := by
    have h2 := find?_map_key (dedupKF (c.builtins.map (fun b => b.name)) [])
      (fun m => (c.builtins.filter (fun b => b.name = m)).map
        (fun b => (b, startOf (sigStarts (distinctSigs c.builtins) 0) b.signature)))
      n hnmem
    unfold groupOv at hfind
    rw [h2] at hfind
    exact (congrArg Prod.snd (Option.some.inj hfind)).symm
  have htw : ((groupOv c.builtins (sigStarts (distinctSigs c.builtins) 0)).takeWhile
        (fun p => ¬ p.1 = n)).map (fun p => p.2.length)
      = ((dedupKF (c.builtins.map (fun b => b.name)) []).takeWhile
          (fun m => ¬ m = n)).map
          (fun m => (c.builtins.filter (fun b => b.name = m)).length) := by
    unfold groupOv
    rw [List.takeWhile_map, List.map_map]
    apply List.map_congr_left
    intro m _
    simp [List.length_map]
  have hlook : isOpenCLBuiltin c n =
      (1 + (((dedupKF (c.builtins.map (fun b => b.name)) []).takeWhile
          (fun m => ¬ m = n)).map
          (fun m => (c.builtins.filter (fun b => b.name = m)).length)).sum,
       (c.builtins.filter (fun b => b.name = n)).length) := by
    unfold isOpenCLBuiltin
    rw [ovInfo_eq]
    simp only [hnfind]
    rw [htw, hovs, List.length_map]
  refine ⟨?_, ?_, ?_, ?_⟩
  · rw [hlook]
    exact Nat.le_add_right 1 _
  · rw [hlook]
  · rw [hlook]
  · have h1 : (isOpenCLBuiltin c n).1 = 1 +
        (((dedupKF (c.builtins.map (fun b => b.name)) []).takeWhile
          (fun m => ¬ m = n)).map
          (fun m => (c.builtins.filter (fun b => b.name = m)).length)).sum := by
      rw [hlook]
    have h2 : (isOpenCLBuiltin c n).2
        = (c.builtins.filter (fun b => b.name = n)).length := by
      rw [hlook]
    rw [h1, h2, Nat.add_sub_cancel_left]
    have htab : EmitBuiltinTable c
        = rowsOf (groupOv c.builtins (sigStarts (distinctSigs c.builtins) 0)) := by
      unfold EmitBuiltinTable rowsOf
      rw [ovInfo_eq]
    rw [htab]
    exact block_slice c.builtins (sigStarts (distinctSigs c.builtins) 0) n hnmem

/-- C3 (witness): the scenario catalog, probed at `sin`. -/
theorem lookup_present_block_witness :
    1 ≤ (isOpenCLBuiltin catS "sin").1 ∧
    (isOpenCLBuiltin catS "sin").2
      = (catS.builtins.filter (fun b => b.name = "sin")).length ∧
    (isOpenCLBuiltin catS "sin").1 = 1 +
      (((dedupKF (catS.builtins.map (fun b => b.name)) []).takeWhile
        (fun m => ¬ m = "sin")).map
        (fun m => (catS.builtins.filter (fun b => b.name = m)).length)).sum ∧
    ((EmitBuiltinTable catS).drop ((isOpenCLBuiltin catS "sin").1 - 1)).take
        (isOpenCLBuiltin catS "sin").2
      = (catS.builtins.filter (fun b => b.name = "sin")).map
          (fun b => builtinRow b
            (startOf (sigStarts (distinctSigs catS.builtins) 0) b.signature)) :=
  lookup_present_block catS "sin" (by decide)

/-! ### The type projector -/

/-- Whether a `QualType` contains a pointer constructor anywhere. -/
def hasPointer : QualType → Bool
  | QualType.void => false
  | QualType.ctxType _ => false
  | QualType.extVector _ t => hasPointer t
  | QualType.addrSpaceQual _ t => hasPointer t
  | QualType.pointer _ => true

/-- No extended-vector node has a pointer anywhere below it. -/
def noVectorOfPointer : QualType → Bool
  | QualType.void => true
  | QualType.ctxType _ => true
  | QualType.extVector _ t => !hasPointer t && noVectorOfPointer t
  | QualType.addrSpaceQual _ t => noVectorOfPointer t
  | QualType.pointer t => noVectorOfPointer t

/-- The base-type resolution performed by the generated switch: the
matching case's context type, or the `VoidTy` default when no case
matches. -/
def resolveBase (types : List TypeRec) (tid : String) : QualType :=
  match (qualCases types []).find? (fun p => p.1 = tid) with
  | some p => QualType.ctxType p.2
  | none => QualType.void

/-- A projection context declaring concrete `float` and `int` types. -/
def ctxEx : List TypeRec :=
  [⟨"float", 0, "Default", false, "FloatTy"⟩, ⟨"int", 0, "Default", false, "IntTy"⟩]

/-- C6 (confirmed): the projector resolves the base type, then wraps
vectors, then (for pointers) qualifies with the address space before
wrapping the pointer: a 4-wide non-pointer `float` descriptor projects to
a 4-wide vector of `float`; a pointer `int` descriptor projects to a
pointer to the address-space-qualified `int`; the output never contains
a vector of pointers; and every pointer descriptor projects to a pointer
to the address-space-qualified (possibly vector-wrapped) base. -/
theorem projection_order :
    OCL2Qual ctxEx ⟨"float", 4, "Default", false⟩
        = QualType.extVector 4 (QualType.ctxType "FloatTy") ∧
    OCL2Qual ctxEx ⟨"int", 0, "AS3", true⟩
        = QualType.pointer (QualType.addrSpaceQual "AS3" (QualType.ctxType "IntTy")) ∧
    (∀ types ty, noVectorOfPointer (OCL2Qual types ty) = true) ∧
    (∀ types ty, ty.isPointer = true →
      OCL2Qual types ty = QualType.pointer (QualType.addrSpaceQual ty.addrSpace
        (if ty.vectorWidth > 0
         then QualType.extVector ty.vectorWidth (resolveBase types ty.id)
         else resolveBase types ty.id))) := by
  refine ⟨by decide, by decide, ?_, ?_⟩
  · intro types ty
    cases hf : (qualCases types []).find? (fun p => p.1 = ty.id) <;>
      by_cases hv : ty.vectorWidth > 0 <;> by_cases hp : ty.isPointer <;>
        simp [OCL2Qual, hf, hv, hp, noVectorOfPointer, hasPointer]
  · intro types ty hp
    cases hf : (qualCases types []).find? (fun p => p.1 = ty.id) <;>
      by_cases hv : ty.vectorWidth > 0 <;>
        simp [OCL2Qual, resolveBase, hf, hv, hp]

/-- C6 (witness): a pointer descriptor, instantiating the pointer-shape
conjunct. -/
theorem projection_order_witness :
    OCL2Qual ctxEx ⟨"int", 2, "AS1", true⟩
      = QualType.pointer (QualType.addrSpaceQual "AS1"
          (if (2 : Nat) > 0 then QualType.extVector 2 (resolveBase ctxEx "int")
           else resolveBase ctxEx "int")) :=
  projection_order.2.2.2 ctxEx ⟨"int", 2, "AS1", true⟩ rfl

/-- A context whose only declared `Type` carries the sentinel concrete
type name. -/
def absTypes : List TypeRec := [⟨"gentype", 0, "Default", false, "null"⟩]

/-- Two declarations of one `Type` name: the first concrete, the second
carrying the sentinel. -/
def dupQTTypes : List TypeRec :=
  [⟨"gentype", 0, "Default", false, "FloatTy"⟩,
   ⟨"gentype", 0, "Default", false, "null"⟩]

/-- C7 (amended): for every declared `Type` name whose first-seen
declaration carries the sentinel concrete type name, no resolution case
is generated for that name and the projection proceeds with the
void-equivalent default base, without failing. -/
theorem sentinel_first_seen_default (types : List TypeRec) (t : TypeRec)
    (hfirst : types.find? (fun u => u.name = t.name) = some t)
    (hnull : t.qtName = "null") :
    (qualCases types []).find? (fun p => p.1 = t.name) = none ∧
    (∀ w asp ptr, OCL2Qual types ⟨t.name, w, asp, ptr⟩ =
      (let rt := if w > 0 then QualType.extVector w QualType.void else QualType.void
       if ptr then QualType.pointer (QualType.addrSpaceQual asp rt) else rt)) := by
  have hnone : (qualCases types []).find? (fun p => p.1 = t.name) = none := by
    rw [find?_qualCases types [] t.name (List.not_mem_nil _), hfirst]
    simp [hnull]
  refine ⟨hnone, ?_⟩
  intro w asp ptr
  rw [OCL2Qual]
  rw [hnone]

/-- C7 (witness for the amended claim): the sentinel-only context. -/
theorem sentinel_first_seen_default_witness :
    (qualCases absTypes []).find? (fun p => p.1 = "gentype") = none ∧
    OCL2Qual absTypes ⟨"gentype", 3, "AS2", true⟩ =
      QualType.pointer (QualType.addrSpaceQual "AS2"
        (QualType.extVector 3 QualType.void)) := by
  have h := sentinel_first_seen_default absTypes
    ⟨"gentype", 0, "Default", false, "null"⟩ rfl rfl
  refine ⟨h.1, ?_⟩
  rw [h.2 3 "AS2" true]
  decide

/-- C7 (counterexample): in `dupQTTypes` the second declared `Type` has
the sentinel concrete type name, yet the projection of its name
resolves to the first declaration's concrete type rather than the
default: the seen-name skip fires before the sentinel skip. -/
theorem sentinel_second_decl_cex :
    (dupQTTypes.getD 1 ⟨"", 0, "", false, ""⟩).qtName = "null" ∧
    OCL2Qual dupQTTypes ⟨"gentype", 0, "Default", false⟩
      = QualType.ctxType "FloatTy" ∧
    QualType.ctxType "FloatTy" ≠ QualType.void := by
  decide

/-- C10 (confirmed): the projection is total: for every descriptor whose
base identifier has no generated resolution case, the switch falls
through leaving the void-equivalent default, and vector and pointer
wrapping still apply to that default. -/
theorem projection_total_default (types : List TypeRec) (ty : OpenCLType)
    (h : (qualCases types []).find? (fun p => p.1 = ty.id) = none) :
    OCL2Qual types ty =
      (let rt := if ty.vectorWidth > 0
                 then QualType.extVector ty.vectorWidth QualType.void
                 else QualType.void
       if ty.isPointer then QualType.pointer (QualType.addrSpaceQual ty.addrSpace rt)
       else rt) := by
  rw [OCL2Qual, h]

/-- C10 (witness): an undeclared base identifier still projects, to a
pointer to a qualified vector of void. -/
theorem projection_total_default_witness :
    OCL2Qual ctxEx ⟨"half", 4, "AS1", true⟩ =
      QualType.pointer (QualType.addrSpaceQual "AS1"
        (QualType.extVector 4 QualType.void)) := by
  have h := projection_total_default ctxEx ⟨"half", 4, "AS1", true⟩ (by decide)
  rw [h]
  rfl

/-! ### The validation behavior on malformed entries -/

/-- A builtin declaration as read from the catalog before field access:
its version reference may be missing and its signature may reference a
record that is not a declared `Type`. -/
structure RawBuiltin where
  name : String
  signature : List Nat
  extension : String
  version : Option Nat
deriving DecidableEq, Repr

/-- Modelled from the spec: the TableGen record accessors
(`getValueAsListOfDefs`, `getValueAsDef` in `llvm/TableGen/Record`, not
part of the sources here) abort generation with a descriptive diagnostic
when a builtin's signature references a record that is not a declared
`Type` (modelled as an out-of-range reference) or when its `Version`
reference is missing; modelled as an `Except`-returning validation of
one raw builtin declaration. -/
def checkBuiltin (numTypes : Nat) (b : RawBuiltin) : Except String BuiltinRec :=
  if b.signature.any (fun r => numTypes ≤ r) then
    Except.error ("signature references an undeclared type in " ++ b.name)
  else
    match b.version with
    | none => Except.error ("missing version reference in " ++ b.name)
    | some v => Except.ok ⟨b.name, b.signature, b.extension, v⟩

/-- Modelled from the spec: the validation pass over all raw builtin
declarations, aborting at the first malformed one. -/
def checkBuiltins (numTypes : Nat) : List RawBuiltin → Except String (List BuiltinRec)
  | [] => Except.ok []
  | b :: bs =>
      match checkBuiltin numTypes b with
      | Except.error e => Except.error e
      | Except.ok r =>
          match checkBuiltins numTypes bs with
          | Except.error e => Except.error e
          | Except.ok rs => Except.ok (r :: rs)

theorem checkBuiltins_error (numTypes : Nat) (bs : List RawBuiltin)
    (h : ∃ b ∈ bs, (∃ r ∈ b.signature, numTypes ≤ r) ∨ b.version = none) :
    ∃ msg, checkBuiltins numTypes bs = Except.error msg := by
  induction bs with
  | nil =>
      obtain ⟨b, hb, _⟩ := h
      cases hb
  | cons b rest ih =>
      obtain ⟨x, hx, hbad⟩ := h
      rcases List.mem_cons.mp hx with rfl | hxr
      · cases hck : checkBuiltin numTypes x with
        | error e => exact ⟨e, by simp [checkBuiltins, hck]⟩
        | ok r =>
            exfalso
            unfold checkBuiltin at hck
            rcases hbad with ⟨s, hs, hle⟩ | hv
            · rw [if_pos (List.any_eq_true.mpr ⟨s, hs, by simpa using hle⟩)] at hck
              cases hck
            · by_cases hany : x.signature.any (fun r => numTypes ≤ r)
              · rw [if_pos hany] at hck
                cases hck
              · rw [if_neg hany, hv] at hck
                cases hck
      · cases hck : checkBuiltin numTypes b with
        | error e => exact ⟨e, by simp [checkBuiltins, hck]⟩
        | ok r =>
            obtain ⟨msg, hmsg⟩ := ih ⟨x, hxr, hbad⟩
            exact ⟨msg, by simp [checkBuiltins, hck, hmsg]⟩

/-- Two declarations of `Type` name `int` with conflicting concrete
types: a duplicate-but-inconsistent type declaration. -/
def dupTypes2 : List TypeRec :=
  [⟨"int", 0, "Default", false, "IntTy"⟩, ⟨"int", 0, "Default", false, "FloatTy"⟩]

/-- C8 (amended): a signature referencing an undeclared type or a
missing version reference aborts the pass with a diagnostic (through the
record accessors, modelled by `checkBuiltins`), but a
duplicate-but-inconsistent type declaration is not detected: generation
completes, and each type name resolves according to its first-seen
declaration only. -/
theorem malformed_entry_handling :
    (∀ (numTypes : Nat) (rbs : List RawBuiltin),
      (∃ b ∈ rbs, (∃ r ∈ b.signature, numTypes ≤ r) ∨ b.version = none) →
      ∃ msg, checkBuiltins numTypes rbs = Except.error msg) ∧
    (∀ (types : List TypeRec) (n : String),
      (qualCases types []).find? (fun p => p.1 = n) =
        (match types.find? (fun t => t.name = n) with
         | none => none
         | some t => if t.qtName = "null" then none else some (n, t.qtName))) :=
  ⟨checkBuiltins_error,
   fun types n => find?_qualCases types [] n (List.not_mem_nil _)⟩

/-- C8 (witness): a dangling signature reference with a missing version
aborts; the duplicate-but-inconsistent `int` resolves to its first-seen
declaration. -/
theorem malformed_entry_handling_witness :
    (∃ msg, checkBuiltins 1 [⟨"foo", [2], "", none⟩] = Except.error msg) ∧
    (qualCases dupTypes2 []).find? (fun p => p.1 = "int")
      = some ("int", "IntTy") := by
  refine ⟨malformed_entry_handling.1 1 [⟨"foo", [2], "", none⟩]
    ⟨⟨"foo", [2], "", none⟩, by decide, Or.inl ⟨2, by decide, by decide⟩⟩, ?_⟩
  rw [malformed_entry_handling.2 dupTypes2 "int"]
  rfl

/-- C8 (counterexample): a duplicate-but-inconsistent type declaration
does not abort generation: the full output (enumerators, resolution
cases, projection) is produced, silently resolved to the first-seen
declaration. -/
theorem duplicate_inconsistent_no_abort_cex :
    (dupTypes2.getD 0 ⟨"", 0, "", false, ""⟩).name
      = (dupTypes2.getD 1 ⟨"", 0, "", false, ""⟩).name ∧
    (dupTypes2.getD 0 ⟨"", 0, "", false, ""⟩).qtName
      ≠ (dupTypes2.getD 1 ⟨"", 0, "", false, ""⟩).qtName ∧
    enumNames dupTypes2 [] = ["int"] ∧
    qualCases dupTypes2 [] = [("int", "IntTy")] ∧
    OCL2Qual dupTypes2 ⟨"int", 0, "Default", false⟩ = QualType.ctxType "IntTy" := by
  decide

end OpenCLEmitter

